import Mathlib

/-!
Verification of the index compression/decompression codec of this repository
(`src/compress_index.py` and `src/decompress_index.py`, the active
uncommented definitions).

Modelling conventions:
* Python `bytes` values are `List Nat` with entries in `[0, 256)`.
* Python `int` is `Int` where the sign can matter, `Nat` where it cannot.
* `bytes(result)` raises `ValueError` when an entry is outside `[0, 256)`;
  this fallible conversion is modelled with `Option`.
* Python `dict`s are association lists (`List (key × value)`); dictionary
  iteration order is the list order, and well-formedness (distinct keys) is
  an explicit hypothesis where a theorem needs it.
-/

/-! ## Variable-byte encoding (src/compress_index.py, lines 199-222) -/

/-- The `while number >= 128` loop body of `variable_byte_encode`
(src/compress_index.py lines 207-211): emit the low 7 bits
(`result.append(number % 128)`), divide by 128, and finally append
`number + 128` (terminator byte, bit 7 set).  The loop never runs for
`number < 128`, in particular never for negative `number`, so the choice of
integer division convention is irrelevant (Lean's `Int` `/`, `%` agree with
Python's on non-negative operands). -/
def vbGo (number : Int) : List Int :=
  if h : 128 ≤ number then number % 128 :: vbGo (number / 128)
  else [number + 128]
termination_by number.toNat
decreasing_by
  have h2 : number / 128 < number := by omega
  have h3 : 0 ≤ number / 128 := by omega
  omega

/-- Models the Python conversion `bytes(result)`: succeeds exactly when every
entry is in `[0, 256)`, otherwise `ValueError` (`none`). -/
def bytesOfList (l : List Int) : Option (List Nat) :=
  l.mapM fun x => if 0 ≤ x ∧ x < 256 then some x.toNat else none

/-- `variable_byte_encode` (src/compress_index.py lines 199-213):
`0` encodes as the single byte `128`; otherwise the loop `vbGo` runs and the
chunk list is converted with `bytes(...)`.  There is no validation of
negative inputs. -/
def variable_byte_encode (number : Int) : Option (List Nat) :=
  if number = 0 then some [128]
  else bytesOfList (vbGo number)

/-- `variable_byte_encode_list` (src/compress_index.py lines 215-222):
concatenation of the encodings; the first failing element aborts. -/
def variable_byte_encode_list (numbers : List Int) : Option (List Nat) :=
  (numbers.mapM variable_byte_encode).map List.flatten

/-- `delta_encode` (src/compress_index.py lines 224-235): first element kept,
later elements replaced by the difference from their predecessor. -/
def delta_encode (numbers : List Int) : List Int :=
  match numbers with
  | [] => []
  | x :: xs => x :: List.zipWith (fun a b => a - b) xs (x :: xs)

/-! ## Variable-byte decoding (src/decompress_index.py, lines 308-332) -/

/-- The inner `while i < len(data)` loop of `variable_byte_decode`
(src/decompress_index.py lines 314-322): consume bytes, accumulating 7-bit
groups at increasing shifts, until a byte with bit 7 set terminates the group
or the input runs out; returns the accumulated value and the remaining
bytes. -/
def vbDecodeStep : List Nat → Nat → Nat → Nat × List Nat
  | [], _, num => (num, [])
  | b :: rest, shift, num =>
    if b &&& 128 ≠ 0 then (num + (b &&& 127) <<< shift, rest)
    else vbDecodeStep rest (shift + 7) (num + b <<< shift)

theorem vbDecodeStep_length_le (data : List Nat) :
    ∀ shift num, (vbDecodeStep data shift num).2.length ≤ data.length := by
  induction data with
  | nil => intro shift num; simp [vbDecodeStep]
  | cons b rest ih =>
    intro shift num
    rw [vbDecodeStep]
    split
    · exact Nat.le_succ _
    · exact Nat.le_succ_of_le (ih _ _)

theorem vbDecodeStep_length_lt (b : Nat) (rest : List Nat) (shift num : Nat) :
    (vbDecodeStep (b :: rest) shift num).2.length < (b :: rest).length := by
  rw [vbDecodeStep]
  split
  · simp
  · exact Nat.lt_succ_of_le (vbDecodeStep_length_le rest _ _)

/-- `variable_byte_decode` (src/decompress_index.py lines 308-324): the outer
`while i < len(data)` loop; after each inner loop the accumulated value is
appended unconditionally — also when the input ran out without a terminating
byte. -/
def variable_byte_decode (data : List Nat) : List Nat :=
  match data with
  | [] => []
  | b :: rest =>
    (vbDecodeStep (b :: rest) 0 0).1 ::
      variable_byte_decode (vbDecodeStep (b :: rest) 0 0).2
termination_by data.length
decreasing_by exact vbDecodeStep_length_lt b rest 0 0

theorem variable_byte_decode_nil : variable_byte_decode [] = [] := by
  rw [variable_byte_decode]

theorem variable_byte_decode_cons (b : Nat) (rest : List Nat) :
    variable_byte_decode (b :: rest) =
      (vbDecodeStep (b :: rest) 0 0).1 ::
        variable_byte_decode (vbDecodeStep (b :: rest) 0 0).2 := by
  rw [variable_byte_decode]

/-- `delta_decode` (src/decompress_index.py lines 326-332) helper:
running prefix sums continuing from `prev`. -/
def deltaDecodeGo (prev : Int) : List Int → List Int
  | [] => []
  | d :: ds => (prev + d) :: deltaDecodeGo (prev + d) ds

/-- `delta_decode` (src/decompress_index.py lines 326-332). -/
def delta_decode (deltas : List Int) : List Int :=
  match deltas with
  | [] => []
  | d :: ds => d :: deltaDecodeGo d ds

/-! ## Helper lemmas about the byte-level codecs -/

/-- `Nat` mirror of `vbGo` for non-negative inputs: the canonical chunk list
`variable_byte_encode` produces for a natural number. -/
def vbGoNat (n : Nat) : List Nat :=
  if h : 128 ≤ n then n % 128 :: vbGoNat (n / 128)
  else [n + 128]
termination_by n
decreasing_by exact Nat.div_lt_self (by omega) (by omega)

theorem vbGo_ofNat (n : Nat) : vbGo (n : Int) = (vbGoNat n).map Int.ofNat := by
  induction n using Nat.strong_induction_on with
  | _ n ih =>
    rw [vbGo, vbGoNat]
    by_cases h : 128 ≤ n
    · have hc : (128 : Int) ≤ (n : Int) := by exact_mod_cast h
      rw [dif_pos hc, dif_pos h, List.map_cons]
      have hdiv : ((n : Int) / 128) = ((n / 128 : Nat) : Int) := by omega
      have hmod : ((n : Int) % 128) = ((n % 128 : Nat) : Int) := by omega
      rw [hdiv, hmod, ih (n / 128) (Nat.div_lt_self (by omega) (by omega))]
      rfl
    · have hc : ¬ (128 : Int) ≤ (n : Int) := by exact_mod_cast h
      rw [dif_neg hc, dif_neg h]
      simp

theorem vbGoNat_bytes_lt (n : Nat) : ∀ b ∈ vbGoNat n, b < 256 := by
  induction n using Nat.strong_induction_on with
  | _ n ih =>
    rw [vbGoNat]
    by_cases h : 128 ≤ n
    · rw [dif_pos h]
      intro b hb
      rcases List.mem_cons.mp hb with h1 | h1
      · omega
      · exact ih (n / 128) (Nat.div_lt_self (by omega) (by omega)) b h1
    · rw [dif_neg h]
      intro b hb
      rcases List.mem_cons.mp hb with h1 | h1
      · omega
      · simp at h1

theorem vbGoNat_ne_nil (n : Nat) : vbGoNat n ≠ [] := by
  rw [vbGoNat]
  split <;> simp

theorem bytesOfList_map_ofNat (l : List Nat) (h : ∀ b ∈ l, b < 256) :
    bytesOfList (l.map Int.ofNat) = some l := by
  induction l with
  | nil => rfl
  | cons b rest ih =>
    have hb : b < 256 := h b (List.mem_cons_self b rest)
    have hcond : 0 ≤ Int.ofNat b ∧ Int.ofNat b < 256 :=
      ⟨Int.ofNat_nonneg b, Int.ofNat_lt.mpr hb⟩
    have ih' := ih fun x hx => h x (List.mem_cons_of_mem b hx)
    rw [bytesOfList] at ih' ⊢
    rw [List.map_cons, List.mapM_cons, if_pos hcond, ih']
    simp

theorem variable_byte_encode_ofNat (n : Nat) :
    variable_byte_encode (n : Int) = some (vbGoNat n) := by
  rw [variable_byte_encode]
  by_cases h : n = 0
  · subst h
    rw [if_pos (by norm_num)]
    rw [vbGoNat, dif_neg (by omega)]
  · rw [if_neg (by exact_mod_cast h)]
    rw [vbGo_ofNat, bytesOfList_map_ofNat _ (vbGoNat_bytes_lt n)]

theorem and128_of_lt (b : Nat) (h : b < 128) : b &&& 128 = 0 := by
  have h7 : b &&& 2 ^ 7 = (b.testBit 7).toNat * 2 ^ 7 := Nat.and_two_pow b 7
  rw [Nat.testBit_eq_false_of_lt (by omega)] at h7
  simpa using h7

theorem and128_of_terminator (b : Nat) (h1 : 128 ≤ b) (h2 : b < 256) :
    b &&& 128 = 128 := by
  have h7 : b &&& 2 ^ 7 = (b.testBit 7).toNat * 2 ^ 7 := Nat.and_two_pow b 7
  have ht : b.testBit 7 = true := by
    rw [Nat.testBit_to_div_mod]
    norm_num
    omega
  rw [ht] at h7
  simpa using h7

theorem and127_eq_mod (b : Nat) : b &&& 127 = b % 128 := by
  have := Nat.and_pow_two_sub_one_eq_mod b 7
  norm_num at this
  exact this

theorem vbDecodeStep_vbGoNat (n : Nat) :
    ∀ (rest : List Nat) (shift num : Nat),
      vbDecodeStep (vbGoNat n ++ rest) shift num =
        (num + n * 2 ^ shift, rest) := by
  induction n using Nat.strong_induction_on with
  | _ n ih =>
    intro rest shift num
    rw [vbGoNat]
    by_cases h : 128 ≤ n
    · rw [dif_pos h, List.cons_append, vbDecodeStep]
      have hlt : n % 128 < 128 := Nat.mod_lt n (by omega)
      rw [if_neg (by simp [and128_of_lt _ hlt])]
      rw [ih (n / 128) (Nat.div_lt_self (by omega) (by omega))]
      have key : num + (n % 128) <<< shift + n / 128 * 2 ^ (shift + 7) =
          num + n * 2 ^ shift := by
        rw [Nat.shiftLeft_eq, pow_add]
        have hfac : n % 128 * 2 ^ shift + n / 128 * (2 ^ shift * 2 ^ 7) =
            (n % 128 + 128 * (n / 128)) * 2 ^ shift := by ring
        rw [Nat.add_assoc, hfac, Nat.mod_add_div n 128]
      rw [key]
    · rw [dif_neg h, List.cons_append, vbDecodeStep]
      have hb : n + 128 < 256 := by omega
      rw [if_pos (by simp [and128_of_terminator (n + 128) (by omega) hb])]
      rw [and127_eq_mod]
      have hmod : (n + 128) % 128 = n := by omega
      rw [hmod, Nat.shiftLeft_eq]
      simp

theorem variable_byte_decode_vbGoNat (n : Nat) (rest : List Nat) :
    variable_byte_decode (vbGoNat n ++ rest) = n :: variable_byte_decode rest := by
  obtain ⟨b, t, hbt⟩ : ∃ b t, vbGoNat n ++ rest = b :: t := by
    cases h : vbGoNat n with
    | nil => exact absurd h (vbGoNat_ne_nil n)
    | cons b t => exact ⟨b, t ++ rest, rfl⟩
  rw [hbt, variable_byte_decode_cons, ← hbt, vbDecodeStep_vbGoNat]
  simp

/-- Value accumulated by the decoder from a run of continuation bytes
(bit 7 clear): base-128 little-endian interpretation. -/
def contAccum : List Nat → Nat
  | [] => 0
  | b :: rest => b + 128 * contAccum rest

theorem vbDecodeStep_all_cont (cs : List Nat) (hc : ∀ b ∈ cs, b < 128) :
    ∀ shift num, vbDecodeStep cs shift num = (num + contAccum cs * 2 ^ shift, []) := by
  induction cs with
  | nil => intro shift num; simp [vbDecodeStep, contAccum]
  | cons b rest ih =>
    intro shift num
    have hb : b < 128 := hc b (List.mem_cons_self b rest)
    rw [vbDecodeStep, if_neg (by simp [and128_of_lt b hb])]
    rw [ih (fun x hx => hc x (List.mem_cons_of_mem b hx))]
    have : num + b <<< shift + contAccum rest * 2 ^ (shift + 7) =
        num + contAccum (b :: rest) * 2 ^ shift := by
      rw [Nat.shiftLeft_eq, pow_add, contAccum]
      ring
    rw [this]

theorem variable_byte_decode_all_cont (cs : List Nat) (hne : cs ≠ [])
    (hc : ∀ b ∈ cs, b < 128) :
    variable_byte_decode cs = [contAccum cs] := by
  cases cs with
  | nil => exact absurd rfl hne
  | cons b rest =>
    rw [variable_byte_decode_cons, vbDecodeStep_all_cont _ hc]
    simp [variable_byte_decode_nil]

/-! ## Claims C2, C3, C4, C6, C9, C10 (byte-level codec) -/

/-- Claim C2 (confirmed): for every non-negative integer `n`,
`variable_byte_decode (variable_byte_encode n)` is the one-element list `[n]`,
and `variable_byte_encode 0` is exactly the single byte `0x80 = 128`. -/
theorem claim_C2 :
    (∀ n : Nat, (variable_byte_encode (n : Int)).map variable_byte_decode = some [n]) ∧
      variable_byte_encode 0 = some [128] := by
  constructor
  · intro n
    rw [variable_byte_encode_ofNat, Option.map_some']
    have := variable_byte_decode_vbGoNat n []
    rw [List.append_nil] at this
    rw [this, variable_byte_decode_nil]
  · rw [variable_byte_encode, if_pos rfl]

/-- Claim C3 counterexample: on the truncated input consisting of the single
continuation byte `0`, `variable_byte_decode` does not fail with a
`TruncatedData` error: it returns the list `[0]` normally.  (The active
decoder has no failure path at all; the claim requires it to raise.) -/
theorem claim_C3_counterexample : variable_byte_decode [0] = [0] := by
  rw [variable_byte_decode_cons]
  simp [vbDecodeStep, variable_byte_decode_nil]

/-- Canonical VB byte stream of a list of naturals (what
`variable_byte_encode_list` produces on non-negative input). -/
def vblNat (l : List Nat) : List Nat := (l.map vbGoNat).flatten

theorem vbGoNat_small (n : Nat) (h : n < 128) : vbGoNat n = [n + 128] := by
  rw [vbGoNat, dif_neg (by omega)]

theorem variable_byte_encode_list_nil : variable_byte_encode_list [] = some [] := rfl

theorem variable_byte_encode_list_cons (x : Int) (xs : List Int) :
    variable_byte_encode_list (x :: xs) =
      (variable_byte_encode x).bind fun bx =>
        (variable_byte_encode_list xs).map fun bxs => bx ++ bxs := by
  rw [variable_byte_encode_list, variable_byte_encode_list, List.mapM_cons]
  cases variable_byte_encode x with
  | none => simp
  | some bx =>
    cases xs.mapM variable_byte_encode with
    | none => simp
    | some rest => simp

theorem variable_byte_encode_list_ofNat (l : List Nat) :
    variable_byte_encode_list (l.map Int.ofNat) = some (vblNat l) := by
  induction l with
  | nil => rfl
  | cons n rest ih =>
    rw [List.map_cons, variable_byte_encode_list_cons, Int.ofNat_eq_natCast,
      variable_byte_encode_ofNat, ih]
    rfl

/-- Claim C3 as amended: when a byte string ends while a VB integer is still
in progress (one or more trailing continuation bytes with no terminating
byte), `variable_byte_decode` does NOT fail: it returns normally, decoding
the well-terminated prefix and appending the partially accumulated value as
one final integer.  Truncation is therefore silently mis-decoded, not
reported as an error. -/
theorem claim_C3_amended (ns : List Nat) (cs : List Nat) (hne : cs ≠ [])
    (hc : ∀ b ∈ cs, b < 128) :
    variable_byte_decode (vblNat ns ++ cs) = ns ++ [contAccum cs] := by
  induction ns with
  | nil =>
    rw [vblNat]
    simpa using variable_byte_decode_all_cont cs hne hc
  | cons n rest ih =>
    have hsplit : vblNat (n :: rest) ++ cs = vbGoNat n ++ (vblNat rest ++ cs) := by
      simp [vblNat, List.append_assoc]
    rw [hsplit, variable_byte_decode_vbGoNat, ih]
    rfl

theorem claim_C3_amended_witness :
    variable_byte_decode (vblNat [1] ++ [0]) = [1] ++ [contAccum [0]] :=
  claim_C3_amended [1] [0] (by simp) (by simp)

/-- Claim C4 counterexample: `variable_byte_encode (-1)` does not fail with
an `InvalidInput` error — it returns the byte string `[127]`. -/
theorem claim_C4_counterexample : variable_byte_encode (-1) = some [127] := by
  rw [variable_byte_encode, if_neg (by norm_num), vbGo, dif_neg (by norm_num)]
  norm_num [bytesOfList, List.mapM_cons]
  rfl

theorem variable_byte_encode_neg (n : Int) (h : n ≤ -1) :
    variable_byte_encode n = if -128 ≤ n then some [(n + 128).toNat] else none := by
  rw [variable_byte_encode, if_neg (by omega), vbGo, dif_neg (by omega)]
  rw [bytesOfList, List.mapM_cons]
  by_cases hr : -128 ≤ n
  · rw [if_pos (by omega), if_pos hr]
    rfl
  · rw [if_neg (by omega), if_neg hr]
    rfl

/-- Claim C4 as amended: `variable_byte_encode` performs no validation of
negative inputs.  For `-128 ≤ n ≤ -1` it silently returns the single byte
`n + 128`; only for `n < -128` does it fail, and then via the byte-range
check of the `bytes(...)` constructor (`ValueError`), not an intentional
`InvalidInput` check. -/
theorem claim_C4_amended (n : Int) (h : n ≤ -1) :
    variable_byte_encode n = if -128 ≤ n then some [(n + 128).toNat] else none :=
  variable_byte_encode_neg n h

theorem claim_C4_amended_witness : variable_byte_encode (-200) = none := by
  have h := claim_C4_amended (-200) (by norm_num)
  simpa using h

/-- Python's `int.bit_length()` for non-negative integers: the number of
binary digits, with `bit_length 0 = 0`. -/
def bit_length (n : Nat) : Nat :=
  if h : n = 0 then 0 else bit_length (n / 2) + 1
termination_by n
decreasing_by exact Nat.div_lt_self (by omega) (by omega)

theorem bit_length_le (k : Nat) : ∀ n, n < 2 ^ k → bit_length n ≤ k := by
  induction k with
  | zero =>
    intro n hn
    have : n = 0 := by omega
    subst this
    rw [bit_length, dif_pos rfl]
  | succ k ih =>
    intro n hn
    by_cases h : n = 0
    · subst h; rw [bit_length, dif_pos rfl]; omega
    · rw [bit_length, dif_neg h]
      have : n / 2 < 2 ^ k := by
        have := Nat.pow_succ 2 k
        omega
      exact Nat.succ_le_succ (ih _ this)

theorem bit_length_pos (n : Nat) (h : n ≠ 0) : 1 ≤ bit_length n := by
  rw [bit_length, dif_neg h]
  omega

theorem bit_length_div_two_pow (k : Nat) :
    ∀ n, 2 ^ k ≤ n → bit_length n = bit_length (n / 2 ^ k) + k := by
  induction k with
  | zero => intro n _; simp
  | succ k ih =>
    intro n hn
    have hn0 : n ≠ 0 := by
      have : 0 < 2 ^ (k + 1) := Nat.pos_pow_of_pos _ (by omega)
      omega
    have h2 : 2 ^ k ≤ n / 2 := by
      have := Nat.pow_succ 2 k
      omega
    rw [bit_length, dif_neg hn0, ih (n / 2) h2]
    have : n / 2 / 2 ^ k = n / 2 ^ (k + 1) := by
      rw [Nat.div_div_eq_div_mul, Nat.pow_succ, Nat.mul_comm]
    rw [this]
    omega

theorem vbGoNat_length (n : Nat) :
    (vbGoNat n).length = max 1 ((bit_length n + 6) / 7) := by
  induction n using Nat.strong_induction_on with
  | _ n ih =>
    rw [vbGoNat]
    by_cases h : 128 ≤ n
    · rw [dif_pos h, List.length_cons,
        ih (n / 128) (Nat.div_lt_self (by omega) (by omega))]
      have hbl : bit_length n = bit_length (n / 128) + 7 := by
        have := bit_length_div_two_pow 7 n (by norm_num; omega)
        norm_num at this
        exact this
      have hpos : 1 ≤ bit_length (n / 128) :=
        bit_length_pos _ (by
          have : 1 ≤ n / 128 := (Nat.one_le_div_iff (by omega)).mpr h
          omega)
      rw [hbl]
      omega
    · rw [dif_neg h, List.length_singleton]
      have hle : bit_length n ≤ 7 := bit_length_le 7 n (by norm_num; omega)
      omega

/-- Claim C6 counterexample: at `n = 127` the encoding is the single byte
`255` (length 1), but the claimed formula `ceil((bitlength(n)+1)/7)`
(minimum 1) gives 2. -/
theorem claim_C6_counterexample :
    variable_byte_encode (127 : Int) = some [255] ∧
      max 1 ((bit_length 127 + 1 + 6) / 7) = 2 ∧ ([255] : List Nat).length ≠ 2 := by
  refine ⟨?_, ?_, by norm_num⟩
  · have h := variable_byte_encode_ofNat 127
    rw [vbGoNat, dif_neg (by norm_num)] at h
    norm_num at h
    exact_mod_cast h
  · have h7 : bit_length 127 = 7 := by
      have := bit_length_div_two_pow 6 127 (by norm_num)
      have h1 : bit_length (127 / 2 ^ 6) = 1 := by
        norm_num
        rw [bit_length, dif_neg (by norm_num), bit_length, dif_pos (by norm_num)]
      omega
    rw [h7]
    decide

/-- Claim C6 as amended: for every `n ≥ 0` the encoded length in bytes is
`ceil(bitlength(n)/7)` with a minimum of 1 byte (the claimed `+1` in the
numerator is wrong exactly when `bitlength(n)` is a positive multiple
of 7). -/
theorem claim_C6_amended (n : Nat) :
    ∃ bs, variable_byte_encode (n : Int) = some bs ∧
      bs.length = max 1 ((bit_length n + 6) / 7) :=
  ⟨vbGoNat n, variable_byte_encode_ofNat n, vbGoNat_length n⟩

/-- Claim C9 (confirmed): `variable_byte_decode` is total and never raises;
on an input consisting of continuation bytes (bit 7 clear) with no
terminating byte it returns normally, appending the partially accumulated
value (base-128 little-endian) as a final integer. -/
theorem claim_C9 (cs : List Nat) (hne : cs ≠ []) (hc : ∀ b ∈ cs, b < 128) :
    variable_byte_decode cs = [contAccum cs] :=
  variable_byte_decode_all_cont cs hne hc

theorem claim_C9_witness : variable_byte_decode [3, 5] = [643] := by
  have h := claim_C9 [3, 5] (by simp) (by simp)
  rw [h]
  norm_num [contAccum]

/-- Claim C10 (confirmed): for `-128 ≤ n ≤ -1`, `variable_byte_encode n`
silently returns the single byte `n + 128` (whose continuation bit, bit 7,
is clear, so it is not a validly terminated VB code), and
`variable_byte_decode` applied to that byte returns `[n + 128]`, which
differs from `[n]`: negative inputs are silently corrupted, not rejected. -/
theorem claim_C10 (n : Int) (h1 : -128 ≤ n) (h2 : n ≤ -1) :
    variable_byte_encode n = some [(n + 128).toNat] ∧
      (n + 128).toNat &&& 128 = 0 ∧
      variable_byte_decode [(n + 128).toNat] = [(n + 128).toNat] ∧
      ((n + 128).toNat : Int) ≠ n := by
  have hb : (n + 128).toNat < 128 := by omega
  refine ⟨?_, and128_of_lt _ hb, ?_, by omega⟩
  · have h := variable_byte_encode_neg n h2
    rwa [if_pos h1] at h
  · have h := variable_byte_decode_all_cont [(n + 128).toNat] (by simp)
      (by intro b hb'; simp at hb'; omega)
    rw [h]
    simp [contAccum]

/-! ## The compressor (src/compress_index.py, lines 237-365)

The pure content of `compress_index`: the bytes and records written to the
four artifacts, with file I/O and `print` statements stripped.  A Python
`dict` `{term: {doc_id: positions}}` is an association list; iteration
order is list order, and every quantity the compressor writes is made
independent of that order by the explicit `set`/`sorted` calls it performs.
-/

/-- One term's posting dictionary: document id string to position list. -/
abbrev Posting := List (String × List Int)

/-- The logical inverted index `{term: {doc_id: [positions]}}`. -/
abbrev LogicalIndex := List (String × Posting)

/-- Python's `sorted` on comparable values (ascending, stable). -/
def pysorted {α : Type} [LinearOrder α] (l : List α) : List α :=
  List.insertionSort (· ≤ ·) l

/-- Lines 257-262: collect every document id appearing in any posting dict
into a set and sort it lexicographically. -/
def sorted_doc_ids (index : LogicalIndex) : List String :=
  pysorted ((index.map fun p => p.2.map Prod.fst).flatten).dedup

/-- Line 263: the dictionary `{doc_id: i for i, doc_id in enumerate(...)}`,
i.e. the rank of a document id in the sorted id list.  (The Python `dict`
lookup cannot fail inside `compress_index`, because every id that is looked
up was collected; `List.indexOf` is total and agrees with it there.) -/
def doc_id_to_int (ids : List String) (d : String) : Nat := List.indexOf d ids

/-- Models `struct.pack('I', n)`: four little-endian bytes.  (Python raises
`struct.error` for `n ≥ 2^32`; none of the claims involves that range and
the failure is not modelled.) -/
def pack4 (n : Nat) : List Nat :=
  [n % 256, n / 256 % 256, n / 65536 % 256, n / 16777216 % 256]

/-- Line 305: `doc_int_postings.sort(key=lambda x: x[0])` — Python's stable
sort by the integer document id. -/
def sort_by_docint (l : List (Nat × List Int)) : List (Nat × List Int) :=
  List.insertionSort (fun a b => a.1 ≤ b.1) l

/-- Lines 318-328: the loop building `encoded_positions_data` and
`positions_offsets` — each document's position list is delta-encoded and
VB-encoded, recording the byte offset of each document's block before
appending it. -/
def encode_positions (positions_lists : List (List Int)) :
    Option (List Nat × List Nat) :=
  positions_lists.foldlM
    (fun acc pos_list =>
      (variable_byte_encode_list (delta_encode pos_list)).bind fun encoded_pos =>
        some (acc.1 ++ [acc.2.length], acc.2 ++ encoded_pos))
    ([], [])

/-- Lines 296-354: the bytes written to `compressed_data.bin` for one term —
a 4-byte document count, a length-prefixed VB block of delta-encoded sorted
integer doc ids, a length-prefixed VB block of the position-data offsets
(the per-document offsets followed by the total length), and the
length-prefixed concatenated position data.  Note: position lists are used
exactly as given (the code does not sort them), and no per-document `tf` is
written. -/
def encode_term_record (ids : List String) (postings : Posting) :
    Option (List Nat) := do
  let doc_int_postings :=
    sort_by_docint (postings.map fun p => (doc_id_to_int ids p.1, p.2))
  let doc_ids := doc_int_postings.map Prod.fst
  let positions_lists := doc_int_postings.map Prod.snd
  let encoded_doc_ids ←
    variable_byte_encode_list (delta_encode (doc_ids.map Int.ofNat))
  let res ← encode_positions positions_lists
  let encoded_offsets ← variable_byte_encode_list
    ((res.1 ++ [res.2.length]).map Int.ofNat)
  return pack4 doc_ids.length ++
    pack4 encoded_doc_ids.length ++ encoded_doc_ids ++
    pack4 encoded_offsets.length ++ encoded_offsets ++
    pack4 res.2.length ++ res.2

/-- Lines 280, 292-360: iterate the terms in sorted order; for each, look up
`postings = index[term]`, encode its record, and remember
`(term, record bytes, num_docs)` where `num_docs = len(doc_ids)` is the
number of postings. -/
def compress_records (index : LogicalIndex) : Option (List (String × List Nat × Nat)) :=
  (pysorted (index.map Prod.fst)).mapM fun term =>
    (encode_term_record (sorted_doc_ids index) ((List.lookup term index).getD [])).bind
      fun record => some (term, record, ((List.lookup term index).getD []).length)

/-- Lines 292-360: sequential write pass — concatenate the records into the
blob and record `metadata[term] = {offset, num_docs}`, where `offset` is the
blob length before the term's record is appended. -/
def build_artifacts (recs : List (String × List Nat × Nat)) :
    List Nat × List (String × Nat × Nat) :=
  recs.foldl
    (fun acc r => (acc.1 ++ r.2.1, acc.2 ++ [(r.1, acc.1.length, r.2.2)]))
    ([], [])

/-- UTF-8 encoding of one Unicode code point (models Python's
`str.encode('utf-8')` per code point). -/
def utf8Char (c : Nat) : List Nat :=
  if c < 128 then [c]
  else if c < 2048 then [192 + c / 64, 128 + c % 64]
  else if c < 65536 then [224 + c / 4096, 128 + c / 64 % 64, 128 + c % 64]
  else [240 + c / 262144, 128 + c / 4096 % 64, 128 + c / 64 % 64, 128 + c % 64]

/-- UTF-8 bytes of a string. -/
def utf8Bytes (s : String) : List Nat :=
  (s.data.map fun ch => utf8Char ch.toNat).flatten

/-- Lines 267-276: the bytes of `doc_mapping.bin` — a 4-byte count, then for
each sorted document id a 4-byte length and the id's UTF-8 bytes. -/
def doc_mapping_bin (ids : List String) : List Nat :=
  pack4 ids.length ++ (ids.map fun d => pack4 (utf8Bytes d).length ++ utf8Bytes d).flatten

/-- Lines 283-286: the text content of `terms.txt` — each sorted term
followed by a newline. -/
def terms_txt (terms : List String) : String :=
  String.join (terms.map fun t => t ++ "\n")

/-- Content of one artifact file.  Serialization to raw bytes is abstracted
per constructor: `textual s` stands for the UTF-8 bytes of `s`, and
`jsonMeta entries` for `json.dump` of the metadata dictionary (both are
deterministic, injective functions of the modelled content). -/
inductive FileContent where
  | binary (bs : List Nat)
  | textual (s : String)
  | jsonMeta (entries : List (String × Nat × Nat))
deriving DecidableEq

/-- Lines 237-365: the full artifact directory written by `compress_index` —
file name to content for the four files it creates. -/
def compress_index_fs (index : LogicalIndex) :
    Option (List (String × FileContent)) := do
  let recs ← compress_records index
  return [("doc_mapping.bin", FileContent.binary (doc_mapping_bin (sorted_doc_ids index))),
    ("terms.txt", FileContent.textual (terms_txt (pysorted (index.map Prod.fst)))),
    ("compressed_data.bin", FileContent.binary (build_artifacts recs).1),
    ("metadata.json", FileContent.jsonMeta (build_artifacts recs).2)]

/-- Models Python `open(os.path.join(dir, name))` on a directory: the file's
content, or `FileNotFoundError` if no file of that name exists. -/
def openFile (fs : List (String × FileContent)) (name : String) :
    Except String FileContent :=
  match List.lookup name fs with
  | some c => Except.ok c
  | none => Except.error ("FileNotFoundError: " ++ name)

/-- The file-opening prefix of `decompress_index`
(src/decompress_index.py lines 338-348): the three `open` calls, in program
order — `docid_mapping.json`, `terms.json`, `compressed_index.bin`.  Python
raises at the first failing `open`, before any decoding happens. -/
def decompress_open_phase (fs : List (String × FileContent)) :
    Except String (FileContent × FileContent × FileContent) := do
  let docmapFile ← openFile fs "docid_mapping.json"
  let termsFile ← openFile fs "terms.json"
  let binFile ← openFile fs "compressed_index.bin"
  return (docmapFile, termsFile, binFile)

/-! ## Claim C1: the compress/decompress pair cannot round-trip -/

/-- Claim C1 (code bug): the round-trip contract fails for EVERY input, the
empty index included.  `compress_index` writes the files `doc_mapping.bin`,
`terms.txt`, `compressed_data.bin`, `metadata.json`, while `decompress_index`
starts by opening `docid_mapping.json`, which `compress_index` never writes;
so decompression of a compressed directory always fails with
`FileNotFoundError` at its very first `open`, and
`decompress(compress(X))` never returns `X`. -/
theorem claim_C1 (index : LogicalIndex) (fs : List (String × FileContent))
    (h : compress_index_fs index = some fs) :
    decompress_open_phase fs =
      Except.error ("FileNotFoundError: " ++ "docid_mapping.json") := by
  rw [compress_index_fs] at h
  cases hrec : compress_records index with
  | none => rw [hrec] at h; exact absurd h (by simp)
  | some recs =>
    rw [hrec] at h
    simp only [Option.bind_eq_bind, Option.some_bind, Option.pure_def,
      Option.some.injEq] at h
    subst h
    rfl

theorem claim_C1_witness :
    decompress_open_phase
      [("doc_mapping.bin", FileContent.binary [0, 0, 0, 0]),
        ("terms.txt", FileContent.textual ""),
        ("compressed_data.bin", FileContent.binary []),
        ("metadata.json", FileContent.jsonMeta [])] =
      Except.error ("FileNotFoundError: " ++ "docid_mapping.json") :=
  claim_C1 [] _ rfl

/-! ## Claim C7: offsets of the metadata entries partition the blob -/

/-- Metadata entries produced by the sequential write pass for `recs`, with
the blob already `base` bytes long. -/
def metaFrom (base : Nat) : List (String × List Nat × Nat) → List (String × Nat × Nat)
  | [] => []
  | r :: rest => (r.1, base, r.2.2) :: metaFrom (base + r.2.1.length) rest

theorem build_artifacts_go (recs : List (String × List Nat × Nat)) :
    ∀ (blob : List Nat) (meta : List (String × Nat × Nat)),
      recs.foldl (fun acc r => (acc.1 ++ r.2.1, acc.2 ++ [(r.1, acc.1.length, r.2.2)]))
        (blob, meta) =
        (blob ++ (recs.map fun r => r.2.1).flatten,
          meta ++ metaFrom blob.length recs) := by
  induction recs with
  | nil => intro blob meta; simp [metaFrom]
  | cons r rest ih =>
    intro blob meta
    rw [List.foldl_cons, ih]
    simp [metaFrom, List.append_assoc]

theorem build_artifacts_eq (recs : List (String × List Nat × Nat)) :
    build_artifacts recs = ((recs.map fun r => r.2.1).flatten, metaFrom 0 recs) := by
  rw [build_artifacts, build_artifacts_go]
  simp

theorem metaFrom_length (recs : List (String × List Nat × Nat)) :
    ∀ base, (metaFrom base recs).length = recs.length := by
  induction recs with
  | nil => intro base; rfl
  | cons r rest ih => intro base; simp [metaFrom, ih]

theorem metaFrom_map_fst (recs : List (String × List Nat × Nat)) :
    ∀ base, (metaFrom base recs).map (fun e => e.1) = recs.map fun r => r.1 := by
  induction recs with
  | nil => intro base; rfl
  | cons r rest ih => intro base; simp [metaFrom, ih]

theorem metaFrom_getD (recs : List (String × List Nat × Nat)) :
    ∀ base i, i < recs.length →
      (metaFrom base recs).getD i default =
        ((recs.getD i default).1,
          base + ((recs.take i).map fun r => r.2.1.length).sum,
          (recs.getD i default).2.2) := by
  induction recs with
  | nil => intro base i h; simp at h
  | cons r rest ih =>
    intro base i h
    cases i with
    | zero => simp [metaFrom]
    | succ i =>
      rw [metaFrom]
      simp only [List.getD_cons_succ, List.take_succ_cons, List.map_cons, List.sum_cons]
      rw [ih (base + r.2.1.length) i (by simpa using h)]
      have : base + r.2.1.length + ((rest.take i).map fun r => r.2.1.length).sum =
          base + (r.2.1.length + ((rest.take i).map fun r => r.2.1.length).sum) := by omega
      rw [this]

theorem pysorted_sorted {α : Type} [LinearOrder α] (l : List α) :
    List.Sorted (· ≤ ·) (pysorted l) :=
  List.sorted_insertionSort _ l

theorem pysorted_perm {α : Type} [LinearOrder α] (l : List α) :
    List.Perm (pysorted l) l :=
  List.perm_insertionSort _ l

theorem mapM_option_map_fst {α β : Type} (f : α → Option β) (g : β → α)
    (hf : ∀ t r, f t = some r → g r = t) :
    ∀ (ts : List α) (out : List β), ts.mapM f = some out → out.map g = ts := by
  intro ts
  induction ts with
  | nil =>
    intro out h
    simp only [List.mapM_nil, pure, Option.some.injEq] at h
    subst h
    rfl
  | cons t rest ih =>
    intro out h
    rw [List.mapM_cons] at h
    cases hft : f t with
    | none => rw [hft] at h; simp at h
    | some b =>
      rw [hft] at h
      cases hrest : rest.mapM f with
      | none => rw [hrest] at h; simp at h
      | some bs =>
        rw [hrest] at h
        simp only [Option.bind_eq_bind, Option.some_bind, pure, Option.some.injEq] at h
        subst h
        simp [hf t b hft, ih bs hrest]

theorem compress_records_map_fst (index : LogicalIndex)
    (recs : List (String × List Nat × Nat)) (h : compress_records index = some recs) :
    recs.map (fun r => r.1) = pysorted (index.map Prod.fst) := by
  rw [compress_records] at h
  refine mapM_option_map_fst _ (fun r => r.1) ?_ _ recs h
  intro t r hr
  cases he : encode_term_record (sorted_doc_ids index) ((List.lookup t index).getD []) with
  | none => rw [he] at hr; simp at hr
  | some record =>
    rw [he] at hr
    simp only [Option.some_bind, Option.some.injEq] at hr
    subst hr
    rfl

theorem sum_take_getD (l : List Nat) (i : Nat) (h : i < l.length) :
    (l.take (i + 1)).sum = (l.take i).sum + l.getD i 0 := by
  rw [List.sum_take_succ l i h, List.getD_eq_getElem l 0 h]

theorem variable_byte_encode_zero : variable_byte_encode (0 : Int) = some [128] := by
  rw [variable_byte_encode, if_pos rfl]

theorem variable_byte_encode_one : variable_byte_encode (1 : Int) = some [129] := by
  have h := variable_byte_encode_ofNat 1
  rw [vbGoNat_small 1 (by omega), Nat.cast_one] at h
  simpa using h

/-- Concrete run of the per-term encoder on the posting dict `{"x": [0]}`
with document map `["x"]`: the record is 20 bytes, consisting of the two
4-byte counts, the VB doc-gap block `[128]`, the 4-byte-length-prefixed VB
offsets block `[128, 129]`, and the length-prefixed positions data `[128]`. -/
theorem encode_term_record_example :
    encode_term_record ["x"] [("x", [(0 : Int)])] =
      some [1, 0, 0, 0, 1, 0, 0, 0, 128, 2, 0, 0, 0, 128, 129, 1, 0, 0, 0, 128] := by
  have hidx : doc_id_to_int ["x"] "x" = 0 := rfl
  rw [encode_term_record]
  simp only [List.map_cons, List.map_nil, hidx, sort_by_docint,
    List.insertionSort, List.orderedInsert, delta_encode, List.zipWith,
    Int.ofNat_eq_natCast, Nat.cast_zero, Nat.cast_one,
    variable_byte_encode_list_cons, variable_byte_encode_list_nil,
    variable_byte_encode_zero, variable_byte_encode_one,
    encode_positions, List.foldlM, Option.bind_eq_bind, Option.some_bind,
    Option.map_some', Option.pure_def, List.length_nil, List.length_cons,
    List.append_nil, List.nil_append, pack4]
  norm_num [variable_byte_encode_list_ofNat, vblNat, vbGoNat_small]
  rw [variable_byte_encode_list_cons, variable_byte_encode_zero,
    variable_byte_encode_list_cons, variable_byte_encode_one,
    variable_byte_encode_list_nil]
  rfl

/-- Concrete run of the term loop on the index
`{"a": {"x": [0]}, "b": {"x": [0]}}`: each term's record is 20 bytes. -/
theorem compress_records_example :
    compress_records [("a", [("x", [(0 : Int)])]), ("b", [("x", [(0 : Int)])])] =
      some [("a", [1, 0, 0, 0, 1, 0, 0, 0, 128, 2, 0, 0, 0, 128, 129, 1, 0, 0, 0, 128], 1),
        ("b", [1, 0, 0, 0, 1, 0, 0, 0, 128, 2, 0, 0, 0, 128, 129, 1, 0, 0, 0, 128], 1)] := by
  have hrec := encode_term_record_example
  have hsort : pysorted (List.map Prod.fst
      [("a", [("x", [(0 : Int)])]), ("b", [("x", [(0 : Int)])])]) = ["a", "b"] := by
    simp [pysorted, List.insertionSort, List.orderedInsert, String.le_iff_toList_le]
    decide
  have hids : sorted_doc_ids [("a", [("x", [(0 : Int)])]), ("b", [("x", [(0 : Int)])])] =
      ["x"] := rfl
  rw [compress_records, hsort, hids]
  have la : (List.lookup "a"
      [("a", [("x", [(0 : Int)])]), ("b", [("x", [(0 : Int)])])]).getD [] =
      [("x", [(0 : Int)])] := rfl
  have lb : (List.lookup "b"
      [("a", [("x", [(0 : Int)])]), ("b", [("x", [(0 : Int)])])]).getD [] =
      [("x", [(0 : Int)])] := rfl
  simp only [List.mapM_cons, List.mapM_nil, la, lb, hrec, Option.bind_eq_bind,
    Option.some_bind, Option.pure_def, Option.some.injEq, Option.map_some',
    List.length_cons, List.length_nil]

/-- Claim C7 counterexample: the directory records `compress_index` writes to
`metadata.json` are `(term, offset, num_docs)` — they carry no `length`
field at all.  On the concrete index `{"a": {"x": [0]}, "b": {"x": [0]}}`
the records are `("a", 0, 1)` and `("b", 20, 1)`; the only numeric field an
entry stores besides its offset is `num_docs`, and `offset + num_docs`
(`0 + 1`) does not equal the next entry's offset (`20`), so the claim's
equation `entry[i].offset + entry[i].length == entry[i+1].offset` is false
for the records as actually written. -/
theorem claim_C7_counterexample :
    (compress_index_fs [("a", [("x", [0])]), ("b", [("x", [0])])]).map
        (fun fs => List.lookup "metadata.json" fs) =
      some (some (FileContent.jsonMeta [("a", 0, 1), ("b", 20, 1)])) ∧
      0 + 1 ≠ 20 := by
  refine ⟨?_, by omega⟩
  rw [compress_index_fs, compress_records_example]
  rfl

/-- Claim C7 as amended: the per-term directory records written by
`compress_index` (the `metadata.json` entries `(term, offset, num_docs)`)
are ordered by term; no `length` field is stored, but taking each entry's
length to be the byte length of its term's record in the blob, the offsets
exactly partition the postings blob: the first entry's offset is `0`, each
entry's offset plus its record's byte length equals the next entry's
offset, and the last entry's end equals the blob's total size. -/
theorem claim_C7_amended (index : LogicalIndex) (recs : List (String × List Nat × Nat))
    (h : compress_records index = some recs) :
    ((build_artifacts recs).2.map fun e => e.1) = pysorted (index.map Prod.fst) ∧
      List.Sorted (· ≤ ·) ((build_artifacts recs).2.map fun e => e.1) ∧
      (build_artifacts recs).2.length = recs.length ∧
      (recs ≠ [] → ((build_artifacts recs).2.getD 0 default).2.1 = 0) ∧
      (∀ i, i + 1 < recs.length →
        ((build_artifacts recs).2.getD i default).2.1 +
            ((recs.getD i default).2.1).length =
          ((build_artifacts recs).2.getD (i + 1) default).2.1) ∧
      (recs ≠ [] →
        ((build_artifacts recs).2.getD (recs.length - 1) default).2.1 +
            ((recs.getD (recs.length - 1) default).2.1).length =
          (build_artifacts recs).1.length) := by
  have hfst : ((build_artifacts recs).2.map fun e => e.1) =
      pysorted (index.map Prod.fst) := by
    rw [build_artifacts_eq]
    rw [metaFrom_map_fst]
    exact compress_records_map_fst index recs h
  have hlen_getD : ∀ i, i < recs.length →
      ((recs.getD i default).2.1).length =
        (recs.map fun r => r.2.1.length).getD i 0 := by
    intro i hi
    rw [List.getD_eq_getElem _ 0 (by simpa using hi),
      List.getD_eq_getElem _ default hi, List.getElem_map]
  have htake : ∀ i, ((recs.take i).map fun r => r.2.1.length).sum =
      ((recs.map fun r => r.2.1.length).take i).sum := by
    intro i
    rw [List.map_take]
  refine ⟨hfst, ?_, ?_, ?_, ?_, ?_⟩
  · rw [hfst]; exact pysorted_sorted _
  · rw [build_artifacts_eq]; exact metaFrom_length recs 0
  · intro hne
    rw [build_artifacts_eq]
    have h0 : 0 < recs.length := List.length_pos.mpr hne
    rw [metaFrom_getD recs 0 0 h0]
    simp
  · intro i hi
    rw [build_artifacts_eq]
    have hi1 : i < recs.length := by omega
    rw [metaFrom_getD recs 0 i hi1, metaFrom_getD recs 0 (i + 1) hi]
    simp only
    rw [hlen_getD i hi1, htake, htake]
    have := sum_take_getD (recs.map fun r => r.2.1.length) i (by simpa using hi1)
    omega
  · intro hne
    rw [build_artifacts_eq]
    have h0 : 0 < recs.length := List.length_pos.mpr hne
    have hlast : recs.length - 1 < recs.length := by omega
    rw [metaFrom_getD recs 0 (recs.length - 1) hlast]
    simp only
    rw [hlen_getD _ hlast, htake]
    have hsum := sum_take_getD (recs.map fun r => r.2.1.length) (recs.length - 1)
      (by simpa using hlast)
    have hfull : (recs.map fun r => r.2.1.length).take (recs.length - 1 + 1) =
        recs.map fun r => r.2.1.length := by
      have : recs.length - 1 + 1 = (recs.map fun r => r.2.1.length).length := by
        simp; omega
      rw [this, List.take_length]
    rw [List.length_flatten, List.map_map]
    rw [hfull] at hsum
    have hcomp : (recs.map fun r => r.2.1.length) =
        List.map (List.length ∘ fun r => r.2.1) recs := rfl
    rw [← hcomp]
    omega

theorem claim_C7_amended_witness :
    ((build_artifacts
          [("a", [1, 0, 0, 0, 1, 0, 0, 0, 128, 2, 0, 0, 0, 128, 129, 1, 0, 0, 0, 128], 1),
            ("b", [1, 0, 0, 0, 1, 0, 0, 0, 128, 2, 0, 0, 0, 128, 129, 1, 0, 0, 0, 128],
              1)]).2.getD 0 default).2.1 +
        (([("a", [1, 0, 0, 0, 1, 0, 0, 0, 128, 2, 0, 0, 0, 128, 129, 1, 0, 0, 0, 128], 1),
            ("b", [1, 0, 0, 0, 1, 0, 0, 0, 128, 2, 0, 0, 0, 128, 129, 1, 0, 0, 0, 128],
              1)].getD 0 default).2.1).length = 20 := by
  have h := claim_C7_amended
    [("a", [("x", [(0 : Int)])]), ("b", [("x", [(0 : Int)])])] _ compress_records_example
  have hchain := h.2.2.2.2.1 0 (by norm_num)
  rw [hchain]
  rfl

theorem claim_C10_witness :
    variable_byte_encode (-1) = some [((-1 : Int) + 128).toNat] ∧
      ((-1 : Int) + 128).toNat &&& 128 = 0 ∧
      variable_byte_decode [((-1 : Int) + 128).toNat] = [((-1 : Int) + 128).toNat] ∧
      (((-1 : Int) + 128).toNat : Int) ≠ -1 :=
  claim_C10 (-1) (by norm_num) (by norm_num)

/-! ## Claim C5: the per-term slice layout -/

/-- Modelled from the spec: the per-term slice layout claimed in spec §4.4
(Term Postings Encoder) — `VB(df)`, then for each document in ascending
integer-id order `VB(doc_gap)`, `VB(tf)` and, when `tf > 0`, the VB-encoded
gap sequence of that document's sorted positions, with no other headers or
length prefixes.  Defined only to compare the claimed layout against the
bytes `encode_term_record` actually produces. -/
def spec_term_slice (ids : List String) (postings : Posting) : Option (List Nat) :=
  let items := sort_by_docint (postings.map fun p => (doc_id_to_int ids p.1, p.2))
  let doc_gaps := delta_encode ((items.map Prod.fst).map Int.ofNat)
  (variable_byte_encode (Int.ofNat items.length)).bind fun head =>
    ((items.zip doc_gaps).mapM fun pg =>
      (variable_byte_encode pg.2).bind fun encGap =>
        (variable_byte_encode (Int.ofNat (pysorted pg.1.2).length)).bind fun encTf =>
          (if 0 < (pysorted pg.1.2).length
            then variable_byte_encode_list (delta_encode (pysorted pg.1.2))
            else some []).bind fun encPos =>
            some (encGap ++ encTf ++ encPos)).bind fun body =>
      some (head ++ body.flatten)

/-- Claim C5 counterexample: on the posting list `{"x": [0]}` (doc map
`["x"]`) the claimed slice layout would be the four bytes
`VB(df=1) VB(doc_gap=0) VB(tf=1) VB(pos_gap=0) = [129, 128, 129, 128]`, but
`encode_term_record` writes a 20-byte record with 4-byte `struct` count and
length prefixes, an offsets table, and no `tf` — the two layouts disagree. -/
theorem claim_C5_counterexample :
    encode_term_record ["x"] [("x", [(0 : Int)])] =
      some [1, 0, 0, 0, 1, 0, 0, 0, 128, 2, 0, 0, 0, 128, 129, 1, 0, 0, 0, 128] ∧
      spec_term_slice ["x"] [("x", [(0 : Int)])] = some [129, 128, 129, 128] ∧
      encode_term_record ["x"] [("x", [(0 : Int)])] ≠
        spec_term_slice ["x"] [("x", [(0 : Int)])] := by
  have hspec : spec_term_slice ["x"] [("x", [(0 : Int)])] = some [129, 128, 129, 128] := by
    have hidx : doc_id_to_int ["x"] "x" = 0 := rfl
    rw [spec_term_slice]
    simp only [List.map_cons, List.map_nil, hidx, sort_by_docint,
      List.insertionSort, List.orderedInsert, delta_encode, List.zipWith,
      List.zip_cons_cons, List.zip_nil_right, List.zip_nil_left,
      Int.ofNat_eq_natCast, Nat.cast_zero, Nat.cast_one, pysorted,
      List.length_cons, List.length_nil, List.mapM_cons, List.mapM_nil,
      variable_byte_encode_list_cons, variable_byte_encode_list_nil,
      variable_byte_encode_zero, variable_byte_encode_one,
      Option.bind_eq_bind, Option.some_bind, Option.pure_def, Option.map_some']
    norm_num [variable_byte_encode_one]
  exact ⟨encode_term_record_example, hspec, by
    rw [encode_term_record_example, hspec]
    simp⟩

/-- VB bytes of one delta-encoded position list (everything non-negative). -/
def encPosBlock (l : List Int) : List Nat :=
  vblNat ((delta_encode l).map Int.toNat)

/-- Byte offsets at which blocks of the given sizes start, the first at
`base`. -/
def offsetsOf (base : Nat) : List Nat → List Nat
  | [] => []
  | n :: rest => base :: offsetsOf (base + n) rest

theorem variable_byte_encode_list_nonneg (l : List Int) (h : ∀ x ∈ l, 0 ≤ x) :
    variable_byte_encode_list l = some (vblNat (l.map Int.toNat)) := by
  induction l with
  | nil => rfl
  | cons x xs ih =>
    rw [variable_byte_encode_list_cons]
    have hx : 0 ≤ x := h x (List.mem_cons_self x xs)
    have hex : variable_byte_encode x = some (vbGoNat x.toNat) := by
      have he := variable_byte_encode_ofNat x.toNat
      rwa [Int.toNat_of_nonneg hx] at he
    rw [hex, ih fun y hy => h y (List.mem_cons_of_mem x hy)]
    rfl

theorem delta_encode_nonneg : ∀ (l : List Int), List.Sorted (· ≤ ·) l →
    (∀ x ∈ l, 0 ≤ x) → ∀ d ∈ delta_encode l, 0 ≤ d
  | [] => by intro _ _ d hd; simp [delta_encode] at hd
  | [x] => by
    intro _ h0 d hd
    simp [delta_encode] at hd
    subst hd
    exact h0 _ (by simp)
  | x :: y :: ys => by
    intro hs h0 d hd
    rw [delta_encode] at hd
    rcases List.mem_cons.mp hd with rfl | hd2
    · exact h0 d (by simp)
    · rw [List.zipWith_cons_cons] at hd2
      rcases List.mem_cons.mp hd2 with rfl | hd3
      · have hxy : x ≤ y := (List.sorted_cons.mp hs).1 y (by simp)
        omega
      · refine delta_encode_nonneg (y :: ys) (List.sorted_cons.mp hs).2
          (fun z hz => h0 z (List.mem_cons_of_mem x hz)) d ?_
        rw [delta_encode]
        exact List.mem_cons_of_mem y hd3

theorem encode_positions_go : ∀ (ls : List (List Int)),
    (∀ l ∈ ls, ∀ d ∈ delta_encode l, 0 ≤ d) → ∀ (acc1 acc2 : List Nat),
    List.foldlM
      (fun acc pos_list =>
        (variable_byte_encode_list (delta_encode pos_list)).bind fun encoded_pos =>
          some (acc.1 ++ [acc.2.length], acc.2 ++ encoded_pos))
      (acc1, acc2) ls =
    some (acc1 ++ offsetsOf acc2.length (ls.map fun l => (encPosBlock l).length),
      acc2 ++ (ls.map encPosBlock).flatten) := by
  intro ls
  induction ls with
  | nil => intro h acc1 acc2; simp [offsetsOf]
  | cons l rest ih =>
    intro h acc1 acc2
    rw [List.foldlM]
    rw [variable_byte_encode_list_nonneg _ (h l (List.mem_cons_self l rest))]
    simp only [Option.bind_eq_bind, Option.some_bind]
    rw [ih (fun x hx => h x (List.mem_cons_of_mem l hx))]
    simp only [List.map_cons, offsetsOf, List.flatten]
    have h1 : (acc2 ++ vblNat ((delta_encode l).map Int.toNat)).length =
        acc2.length + (encPosBlock l).length := by
      rw [List.length_append, encPosBlock]
    rw [h1]
    simp [List.append_assoc, encPosBlock]

theorem encode_positions_spec (ls : List (List Int))
    (h : ∀ l ∈ ls, ∀ d ∈ delta_encode l, 0 ≤ d) :
    encode_positions ls =
      some (offsetsOf 0 (ls.map fun l => (encPosBlock l).length),
        (ls.map encPosBlock).flatten) := by
  rw [encode_positions, encode_positions_go ls h [] []]
  rfl

theorem sort_by_docint_key_sorted (l : List (Nat × List Int)) :
    List.Sorted (· ≤ ·) ((sort_by_docint l).map Prod.fst) := by
  haveI : IsTotal (Nat × List Int) (fun a b => a.1 ≤ b.1) :=
    ⟨fun a b => Nat.le_total a.1 b.1⟩
  haveI : IsTrans (Nat × List Int) (fun a b => a.1 ≤ b.1) :=
    ⟨fun a b c hab hbc => le_trans hab hbc⟩
  have hs : List.Sorted (fun a b : Nat × List Int => a.1 ≤ b.1) (sort_by_docint l) :=
    List.sorted_insertionSort _ _
  exact (List.pairwise_map).mpr hs

/-- Claim C5 as amended: for every term whose position lists are sorted and
non-negative, `encode_term_record` succeeds and produces exactly —
a 4-byte little-endian document count; a 4-byte length followed by the
single VB block of the delta-encoded ascending integer doc ids; a 4-byte
length followed by the VB block of the per-document positions-data offsets
with the total positions-data length appended; and a 4-byte length followed
by the concatenated per-document VB blocks of delta-encoded positions
(taken as given, not re-sorted).  No `VB(df)` header, no per-document `tf`,
and no interleaving of doc gaps with position data, contrary to the claimed
layout. -/
theorem claim_C5_amended (ids : List String) (postings : Posting)
    (hpos : ∀ p ∈ postings, List.Sorted (· ≤ ·) p.2 ∧ ∀ x ∈ p.2, 0 ≤ x) :
    encode_term_record ids postings =
      some (
        let items := sort_by_docint (postings.map fun p => (doc_id_to_int ids p.1, p.2))
        let encDocIds :=
          vblNat ((delta_encode ((items.map Prod.fst).map Int.ofNat)).map Int.toNat)
        let posData := ((items.map Prod.snd).map encPosBlock).flatten
        let offBytes := vblNat
          (offsetsOf 0 ((items.map Prod.snd).map fun l => (encPosBlock l).length) ++
            [posData.length])
        pack4 items.length ++ pack4 encDocIds.length ++ encDocIds ++
          pack4 offBytes.length ++ offBytes ++ pack4 posData.length ++ posData) := by
  simp only [encode_term_record]
  have hdocsorted : List.Sorted (· ≤ ·)
      (((sort_by_docint (postings.map fun p => (doc_id_to_int ids p.1, p.2))).map
        Prod.fst).map Int.ofNat) := by
    refine (List.pairwise_map).mpr ?_
    refine List.Pairwise.imp ?_ (sort_by_docint_key_sorted _)
    intro a b hab
    exact Int.ofNat_le.mpr hab
  have hdocnonneg : ∀ x ∈ ((sort_by_docint
      (postings.map fun p => (doc_id_to_int ids p.1, p.2))).map Prod.fst).map Int.ofNat,
      0 ≤ x := by
    intro x hx
    obtain ⟨n, _, rfl⟩ := List.mem_map.mp hx
    exact Int.ofNat_nonneg n
  rw [variable_byte_encode_list_nonneg _
    (delta_encode_nonneg _ hdocsorted hdocnonneg)]
  have hplists : ∀ l ∈ (sort_by_docint
      (postings.map fun p => (doc_id_to_int ids p.1, p.2))).map Prod.snd,
      ∀ d ∈ delta_encode l, 0 ≤ d := by
    intro l hl
    obtain ⟨p, hp, rfl⟩ := List.mem_map.mp hl
    have hp2 : p ∈ postings.map fun q => (doc_id_to_int ids q.1, q.2) :=
      (List.perm_insertionSort (fun a b : Nat × List Int => a.1 ≤ b.1) _).subset hp
    obtain ⟨q, hq, rfl⟩ := List.mem_map.mp hp2
    exact delta_encode_nonneg q.2 (hpos q hq).1 (hpos q hq).2
  rw [encode_positions_spec _ hplists]
  simp only [Option.bind_eq_bind, Option.some_bind]
  rw [variable_byte_encode_list_ofNat]
  simp only [Option.bind_eq_bind, Option.some_bind, List.length_map]
  rfl

theorem claim_C5_amended_witness :
    encode_term_record ["x"] [("x", [(0 : Int)])] =
      some (
        let items := sort_by_docint
          ([("x", [(0 : Int)])].map fun p => (doc_id_to_int ["x"] p.1, p.2))
        let encDocIds :=
          vblNat ((delta_encode ((items.map Prod.fst).map Int.ofNat)).map Int.toNat)
        let posData := ((items.map Prod.snd).map encPosBlock).flatten
        let offBytes := vblNat
          (offsetsOf 0 ((items.map Prod.snd).map fun l => (encPosBlock l).length) ++
            [posData.length])
        pack4 items.length ++ pack4 encDocIds.length ++ encDocIds ++
          pack4 offBytes.length ++ offBytes ++ pack4 posData.length ++ posData) :=
  claim_C5_amended ["x"] [("x", [(0 : Int)])] (by
    intro p hp
    simp at hp
    subst hp
    constructor
    · simp
    · intro x hx
      simp at hx
      omega)

/-! ## Claim C8: compression is independent of dictionary iteration order -/

theorem lookup_eq_some_iff {α β : Type} [BEq α] [LawfulBEq α] (l : List (α × β))
    (hn : (l.map Prod.fst).Nodup) (a : α) (b : β) :
    List.lookup a l = some b ↔ (a, b) ∈ l := by
  induction l with
  | nil => simp
  | cons p rest ih =>
    obtain ⟨k, v⟩ := p
    rw [List.map_cons, List.nodup_cons] at hn
    rw [List.lookup_cons]
    by_cases hak : a = k
    · subst hak
      simp only [beq_self_eq_true]
      constructor
      · intro h
        rw [Option.some.injEq] at h
        subst h
        exact List.mem_cons_self _ _
      · intro hmem
        rcases List.mem_cons.mp hmem with heq | hmem2
        · rw [Option.some.injEq]
          exact (congrArg Prod.snd heq).symm
        · exact absurd (List.mem_map.mpr ⟨(a, b), hmem2, rfl⟩) hn.1
    · have hbeq : (a == k) = false := by simp [hak]
      simp only [hbeq]
      rw [ih hn.2]
      constructor
      · exact fun h => List.mem_cons_of_mem _ h
      · intro hmem
        rcases List.mem_cons.mp hmem with heq | hmem2
        · exact absurd (congrArg Prod.fst heq) hak
        · exact hmem2

theorem keys_mem_of_lookup {α β : Type} [BEq α] [LawfulBEq α] :
    ∀ (l : List (α × β)) (a : α) (b : β), List.lookup a l = some b → (a, b) ∈ l := by
  intro l
  induction l with
  | nil => intro a b h; simp at h
  | cons p rest ih =>
    intro a b h
    obtain ⟨k, v⟩ := p
    rw [List.lookup_cons] at h
    by_cases hak : a = k
    · subst hak
      simp only [beq_self_eq_true] at h
      rw [Option.some.injEq] at h
      subst h
      exact List.mem_cons_self _ _
    · have hbeq : (a == k) = false := by simp [hak]
      simp only [hbeq] at h
      exact List.mem_cons_of_mem _ (ih a b h)

theorem lookup_mem_keys {α β : Type} [BEq α] [LawfulBEq α] :
    ∀ (l : List (α × β)) (a : α), a ∈ l.map Prod.fst → ∃ b, List.lookup a l = some b := by
  intro l
  induction l with
  | nil => intro a h; simp at h
  | cons p rest ih =>
    intro a h
    obtain ⟨k, v⟩ := p
    rw [List.lookup_cons]
    by_cases hak : a = k
    · subst hak
      exact ⟨v, by simp only [beq_self_eq_true]⟩
    · have hbeq : (a == k) = false := by simp [hak]
      simp only [hbeq]
      apply ih
      rw [List.map_cons] at h
      rcases List.mem_cons.mp h with heq | h2
      · exact absurd heq hak
      · exact h2

theorem assoc_perm_of_lookup_eq {α β : Type} [BEq α] [LawfulBEq α]
    (l1 l2 : List (α × β))
    (hn1 : (l1.map Prod.fst).Nodup) (hn2 : (l2.map Prod.fst).Nodup)
    (hk : List.Perm (l1.map Prod.fst) (l2.map Prod.fst))
    (hv : ∀ d ∈ l1.map Prod.fst, List.lookup d l1 = List.lookup d l2) :
    List.Perm l1 l2 := by
  rw [List.perm_ext_iff_of_nodup (List.Nodup.of_map _ hn1) (List.Nodup.of_map _ hn2)]
  rintro ⟨a, b⟩
  constructor
  · intro h1
    have hak : a ∈ l1.map Prod.fst := List.mem_map.mpr ⟨(a, b), h1, rfl⟩
    have hl2 : List.lookup a l2 = some b := by
      rw [← hv a hak]
      exact (lookup_eq_some_iff l1 hn1 a b).mpr h1
    exact keys_mem_of_lookup l2 a b hl2
  · intro h2
    have hak2 : a ∈ l2.map Prod.fst := List.mem_map.mpr ⟨(a, b), h2, rfl⟩
    have hak : a ∈ l1.map Prod.fst := hk.mem_iff.mpr hak2
    have hl1 : List.lookup a l1 = some b := by
      rw [hv a hak]
      exact (lookup_eq_some_iff l2 hn2 a b).mpr h2
    exact keys_mem_of_lookup l1 a b hl1

theorem pysorted_eq_of_perm {α : Type} [LinearOrder α] (l1 l2 : List α)
    (h : List.Perm l1 l2) : pysorted l1 = pysorted l2 :=
  List.eq_of_perm_of_sorted
    ((pysorted_perm l1).trans (h.trans (pysorted_perm l2).symm))
    (pysorted_sorted l1) (pysorted_sorted l2)

theorem pairwiseAnd {α : Type} {R S : α → α → Prop} :
    ∀ {l : List α}, List.Pairwise R l → List.Pairwise S l →
      List.Pairwise (fun a b => R a b ∧ S a b) l := by
  intro l
  induction l with
  | nil => intro h1 h2; exact List.Pairwise.nil
  | cons a rest ih =>
    intro h1 h2
    rw [List.pairwise_cons] at h1 h2 ⊢
    exact ⟨fun b hb => ⟨h1.1 b hb, h2.1 b hb⟩, ih h1.2 h2.2⟩

theorem insertionSort_key_strict {β : Type} (l : List (Nat × β))
    (hn : (l.map Prod.fst).Nodup) :
    List.Pairwise (fun a b : Nat × β => a.1 < b.1)
      (List.insertionSort (fun a b : Nat × β => a.1 ≤ b.1) l) := by
  haveI : IsTotal (Nat × β) (fun a b => a.1 ≤ b.1) := ⟨fun a b => Nat.le_total _ _⟩
  haveI : IsTrans (Nat × β) (fun a b => a.1 ≤ b.1) := ⟨fun a b c => Nat.le_trans⟩
  have hs := List.sorted_insertionSort (fun a b : Nat × β => a.1 ≤ b.1) l
  have hnd : ((List.insertionSort (fun a b : Nat × β => a.1 ≤ b.1) l).map Prod.fst).Nodup := by
    refine (List.Perm.nodup_iff ?_).mpr hn
    exact (List.perm_insertionSort _ l).map Prod.fst
  have hne : List.Pairwise (fun a b : Nat × β => a.1 ≠ b.1)
      (List.insertionSort (fun a b : Nat × β => a.1 ≤ b.1) l) :=
    (List.pairwise_map).mp hnd
  exact (pairwiseAnd hs hne).imp fun hab => Nat.lt_of_le_of_ne hab.1 hab.2

theorem insertionSort_key_eq {β : Type} (l1 l2 : List (Nat × β))
    (hp : List.Perm l1 l2) (hn : (l1.map Prod.fst).Nodup) :
    List.insertionSort (fun a b : Nat × β => a.1 ≤ b.1) l1 =
      List.insertionSort (fun a b : Nat × β => a.1 ≤ b.1) l2 := by
  haveI : IsAntisymm (Nat × β) (fun a b => a.1 < b.1) :=
    ⟨fun a b h1 h2 => absurd (Nat.lt_trans h1 h2) (Nat.lt_irrefl _)⟩
  have hn2 : (l2.map Prod.fst).Nodup := (List.Perm.nodup_iff (hp.map Prod.fst)).mp hn
  exact List.eq_of_perm_of_sorted
    ((List.perm_insertionSort _ l1).trans (hp.trans (List.perm_insertionSort _ l2).symm))
    (insertionSort_key_strict l1 hn) (insertionSort_key_strict l2 hn2)

theorem mapM_congr_option {α β : Type} (f g : α → Option β) :
    ∀ (l : List α), (∀ a ∈ l, f a = g a) → l.mapM f = l.mapM g := by
  intro l
  induction l with
  | nil => intro _; rfl
  | cons a rest ih =>
    intro h
    rw [List.mapM_cons, List.mapM_cons, h a (List.mem_cons_self a rest),
      ih fun x hx => h x (List.mem_cons_of_mem a hx)]

theorem collect_mem_iff (Z : LogicalIndex) (hZk : (Z.map Prod.fst).Nodup) (d : String) :
    d ∈ (Z.map fun p => p.2.map Prod.fst).flatten ↔
      ∃ t ∈ Z.map Prod.fst, d ∈ ((List.lookup t Z).getD []).map Prod.fst := by
  rw [List.mem_flatten]
  constructor
  · rintro ⟨lkeys, hl, hd⟩
    obtain ⟨p, hp, rfl⟩ := List.mem_map.mp hl
    obtain ⟨t, ps⟩ := p
    refine ⟨t, List.mem_map.mpr ⟨(t, ps), hp, rfl⟩, ?_⟩
    rw [(lookup_eq_some_iff Z hZk t ps).mpr hp]
    simpa using hd
  · rintro ⟨t, ht, hd⟩
    obtain ⟨ps, hlook⟩ := lookup_mem_keys Z t ht
    rw [hlook] at hd
    have hmem : (t, ps) ∈ Z := keys_mem_of_lookup Z t ps hlook
    exact ⟨ps.map Prod.fst, List.mem_map.mpr ⟨(t, ps), hmem, rfl⟩, by simpa using hd⟩

theorem mem_sorted_doc_ids (Z : LogicalIndex) (d : String) :
    d ∈ sorted_doc_ids Z ↔ d ∈ (Z.map fun p => p.2.map Prod.fst).flatten := by
  rw [sorted_doc_ids, (pysorted_perm _).mem_iff, List.mem_dedup]

theorem sorted_doc_ids_nodup (Z : LogicalIndex) : (sorted_doc_ids Z).Nodup := by
  rw [sorted_doc_ids]
  exact (List.Perm.nodup_iff (pysorted_perm _)).mpr (List.nodup_dedup _)

/-- Claim C8 (confirmed): compressing two association-list representations
of the same LogicalIndex mapping — same term set, same per-term document
dictionaries as mappings, enumerated in any orders — produces identical
artifacts (document map, terms file, postings blob bytes, and metadata
entries), because the compressor sorts the term list, the document-id set
and each term's postings before writing anything. -/
theorem claim_C8 (X Y : LogicalIndex)
    (hXk : (X.map Prod.fst).Nodup) (hYk : (Y.map Prod.fst).Nodup)
    (hXi : ∀ p ∈ X, (p.2.map Prod.fst).Nodup)
    (hperm : List.Perm (X.map Prod.fst) (Y.map Prod.fst))
    (hik : ∀ t ∈ X.map Prod.fst,
      List.Perm (((List.lookup t X).getD []).map Prod.fst)
        (((List.lookup t Y).getD []).map Prod.fst))
    (hval : ∀ t ∈ X.map Prod.fst, ∀ d ∈ ((List.lookup t X).getD []).map Prod.fst,
      List.lookup d ((List.lookup t X).getD []) =
        List.lookup d ((List.lookup t Y).getD [])) :
    compress_index_fs X = compress_index_fs Y := by
  have hids : sorted_doc_ids X = sorted_doc_ids Y := by
    rw [sorted_doc_ids, sorted_doc_ids]
    apply pysorted_eq_of_perm
    rw [List.perm_ext_iff_of_nodup (List.nodup_dedup _) (List.nodup_dedup _)]
    intro d
    rw [List.mem_dedup, List.mem_dedup, collect_mem_iff X hXk d, collect_mem_iff Y hYk d]
    constructor
    · rintro ⟨t, ht, hd⟩
      exact ⟨t, hperm.mem_iff.mp ht, (hik t ht).mem_iff.mp hd⟩
    · rintro ⟨t, ht, hd⟩
      have htX : t ∈ X.map Prod.fst := hperm.mem_iff.mpr ht
      exact ⟨t, htX, (hik t htX).mem_iff.mpr hd⟩
  have hterms : pysorted (X.map Prod.fst) = pysorted (Y.map Prod.fst) :=
    pysorted_eq_of_perm _ _ hperm
  have hrecs : compress_records X = compress_records Y := by
    rw [compress_records, compress_records, hterms, hids]
    apply mapM_congr_option
    intro t ht
    have htY : t ∈ Y.map Prod.fst := (pysorted_perm _).subset ht
    have htX : t ∈ X.map Prod.fst := hperm.mem_iff.mpr htY
    obtain ⟨psX, hlX⟩ := lookup_mem_keys X t htX
    obtain ⟨psY, hlY⟩ := lookup_mem_keys Y t htY
    rw [hlX, hlY]
    simp only [Option.getD_some]
    have hnX : (psX.map Prod.fst).Nodup := hXi (t, psX) (keys_mem_of_lookup X t psX hlX)
    have hkperm : List.Perm (psX.map Prod.fst) (psY.map Prod.fst) := by
      have h := hik t htX
      rwa [hlX, hlY, Option.getD_some, Option.getD_some] at h
    have hnY : (psY.map Prod.fst).Nodup := (List.Perm.nodup_iff hkperm).mp hnX
    have hv : ∀ d ∈ psX.map Prod.fst, List.lookup d psX = List.lookup d psY := by
      intro d hd
      have h := hval t htX d (by rwa [hlX, Option.getD_some])
      rwa [hlX, hlY, Option.getD_some, Option.getD_some] at h
    have hpl : List.Perm psX psY := assoc_perm_of_lookup_eq psX psY hnX hnY hkperm hv
    have hsub : ∀ d ∈ psX.map Prod.fst, d ∈ sorted_doc_ids Y := by
      intro d hd
      rw [mem_sorted_doc_ids, collect_mem_iff Y hYk d]
      refine ⟨t, htY, ?_⟩
      rw [hlY, Option.getD_some]
      exact hkperm.mem_iff.mp hd
    have hmapnd : ((psX.map fun p => (doc_id_to_int (sorted_doc_ids Y) p.1, p.2)).map
        Prod.fst).Nodup := by
      have hface : (psX.map fun p => (doc_id_to_int (sorted_doc_ids Y) p.1, p.2)).map
          Prod.fst = (psX.map Prod.fst).map (doc_id_to_int (sorted_doc_ids Y)) := by
        rw [List.map_map, List.map_map]
        rfl
      rw [hface]
      refine List.Nodup.map_on ?_ hnX
      intro x hx y hy hxy
      exact (List.indexOf_inj (hsub x hx) (hsub y hy)).mp hxy
    have hsorteq : sort_by_docint
        (psX.map fun p => (doc_id_to_int (sorted_doc_ids Y) p.1, p.2)) =
        sort_by_docint (psY.map fun p => (doc_id_to_int (sorted_doc_ids Y) p.1, p.2)) := by
      rw [sort_by_docint, sort_by_docint]
      exact insertionSort_key_eq _ _
        (hpl.map fun p => (doc_id_to_int (sorted_doc_ids Y) p.1, p.2)) hmapnd
    have hrec_eq : encode_term_record (sorted_doc_ids Y) psX =
        encode_term_record (sorted_doc_ids Y) psY := by
      simp only [encode_term_record]
      rw [hsorteq]
    rw [hrec_eq, hpl.length_eq]
  rw [compress_index_fs, compress_index_fs, hids, hterms, hrecs]

theorem claim_C8_witness :
    compress_index_fs [("b", [("d2", [(1 : Int)])]), ("a", [("y", [2]), ("x", [0])])] =
      compress_index_fs [("a", [("x", [(0 : Int)]), ("y", [2])]), ("b", [("d2", [1])])] := by
  refine claim_C8 _ _ (by decide) (by decide) (by decide)
    (List.Perm.swap "a" "b" []) ?_ (by decide)
  intro t ht
  simp only [List.map_cons, List.map_nil, List.mem_cons, List.not_mem_nil, or_false] at ht
  rcases ht with rfl | rfl
  · exact List.Perm.refl _
  · exact List.Perm.swap "x" "y" []
